import Mathlib

/-!
# Verification of the discordgo event dispatcher and role-reorder algorithm

Shallow embedding of the repository's core:

* `roles.go` — the `Role.Move` hierarchy-reorder algorithm (`Guild.moveRole`
  below), together with `Role.IsDefault`, the `Roles` sort order and the
  `RoleMove` edit descriptors.
* the event file (`src/unnamed/part_000`) — the handler registry
  (`Session.addEventHandler`, `Session.addEventHandlerOnce`,
  `Session.removeEventHandlerInstance`), the dispatcher (`Session.handle`,
  `Session.handleEvent`), the NATS bridge entry point (`natsHandler`) and the
  subscription bookkeeping of `Session.AddHandler` / `Session.AddHandlerOnce`.

Go machine integers are modelled as `Int` (no arithmetic here approaches the
64-bit boundary, and the `float64` round trip in `Move` is exact for the
magnitudes of interest).  Handler function pointers (`*eventHandlerInstance`)
are modelled as `Nat` identifiers: each registration allocates a fresh pointer
in Go, so distinct registrations compare unequal.  Callback invocation is
modelled by an observable trace of `TraceEntry` items rather than actual
execution of user code.
-/

namespace Discordgo

/-- A guild role, keeping the two fields `Role.Move` reads and writes:
`ID` and `Position` (`roles.go`). -/
structure Role where
  id : String
  position : Int
deriving DecidableEq, Repr

/-- A guild: its snowflake `ID` and its `Roles` slice (the fields `Role.Move`
uses through `r.Guild`). -/
structure Guild where
  id : String
  roles : List Role
deriving DecidableEq, Repr

/-- `RoleMove` from `roles.go`: one `(id, newPosition)` edit descriptor. -/
structure RoleMove where
  id : String
  position : Int
deriving DecidableEq, Repr

/-- The two error values `Role.Move` can return before talking to the API:
`ErrRolePositionBounds` and `ErrUnmovableDefaultRole`. -/
inductive MoveError where
  | rolePositionBounds
  | unmovableDefaultRole
deriving DecidableEq, Repr

/-- `Role.IsDefault` from `roles.go`: the role is the default (@everyone) role
iff its id equals the guild's id. -/
def Role.isDefault (guildId : String) (r : Role) : Bool :=
  r.id == guildId

/-- The ordering `Role.Move` sorts the collected roles by.  `Roles.Less` in
`roles.go` is `r[i].Position > r[j].Position`, and `Move` sorts with
`sort.Sort(sort.Reverse(editedRoles))`, i.e. by the reverse of that order:
ascending position.  Go's `sort.Sort` is an unspecified (unstable) comparison
sort; we model it with `List.insertionSort`, which realizes the same order. -/
def rolePosLe (a b : Role) : Prop :=
  a.position ≤ b.position

instance : DecidableRel rolePosLe := fun a b => Int.decLe a.position b.position

instance : IsTotal Role rolePosLe := ⟨fun a b => Int.le_total a.position b.position⟩

instance : IsTrans Role rolePosLe := ⟨fun _ _ _ h h' => le_trans h h'⟩

/-- `sort.Sort(sort.Reverse(editedRoles))` in `Role.Move`: sort the collected
roles by ascending position. -/
def sortEditedRoles (l : List Role) : List Role :=
  l.insertionSort rolePosLe

/-- Membership of a position in the affected range `[lo, hi]`
(`role.Position <= max && role.Position >= min` in `Role.Move`). -/
def inPosRange (lo hi : Int) (x : Role) : Bool :=
  decide (lo ≤ x.position) && decide (x.position ≤ hi)

/-- The collection loop of `Role.Move`: every role of the guild other than the
moved one whose position lies in `[lo, hi]`, in slice order. -/
def collectEdited (rs : List Role) (rid : String) (lo hi : Int) : List Role :=
  rs.filter (fun role => role.id != rid && inPosRange lo hi role)

/-- The reassignment loop of `Role.Move`:
`for p, i := min, 0; p <= max+1 && i < len(editedRoles); p, i = p+1, i+1`
assigning position `p` to element `i` and recording a `RoleMove`. -/
def assignWalk (combined : List Role) (p hi : Int) : List RoleMove :=
  match combined with
  | [] => []
  | c :: rest =>
      if p ≤ hi + 1 then ⟨c.id, p⟩ :: assignWalk rest (p + 1) hi else []

/-- The in-place mutation `editedRoles[i].Position = p` seen from the guild:
every role whose id received an edit gets the edited position (role ids are
unique in a guild, so lookup by id coincides with Go's pointer mutation). -/
def applyEdits (edits : List RoleMove) (rs : List Role) : List Role :=
  rs.map (fun role =>
    match edits.find? (fun e => e.id == role.id) with
    | some e => { role with position := e.position }
    | none => role)

/-- `Role.Move` from `roles.go`.  On success it returns the recorded batch of
`RoleMove` edits (the argument of `GuildRoleReorder`) and the guild with the
in-memory position mutations applied.  The two error returns happen before any
mutation, which the `Except.error` result reflects (no edits, no new guild). -/
def Guild.moveRole (g : Guild) (r : Role) (position : Int) :
    Except MoveError (List RoleMove × Guild) :=
  if position ≤ 0 then .error .rolePositionBounds
  else if r.isDefault g.id then .error .unmovableDefaultRole
  else
    let lo := min position r.position
    let hi := max position r.position
    let edited := collectEdited g.roles r.id lo hi
    let sorted := sortEditedRoles edited
    let combined := if position = lo then r :: sorted else sorted ++ [r]
    let edits := assignWalk combined lo hi
    .ok (edits, { g with roles := applyEdits edits g.roles })

/-- The ascending contiguous run of `n` integer positions starting at `lo`. -/
def ascIntList (lo : Int) : Nat → List Int
  | 0 => []
  | n + 1 => lo :: ascIntList (lo + 1) n

/-- The positions currently occupied inside `[lo, hi]`, with multiplicity. -/
def rangeOccupancy (g : Guild) (lo hi : Int) : List Int :=
  (g.roles.filter (inPosRange lo hi)).map Role.position

/-- The net effect `Role.Move` has on one role when every position of the
affected range is occupied by exactly one role: the moved role goes to the
target, the other roles of the range shift by one slot (up when the move is
toward the low end, down otherwise), everything else is untouched. -/
def moveShift (rid : String) (t lo hi : Int) (x : Role) : Role :=
  if x.id = rid then { x with position := t }
  else if inPosRange lo hi x then
    { x with position := if t = lo then x.position + 1 else x.position - 1 }
  else x

theorem ascIntList_length (lo : Int) (n : Nat) : (ascIntList lo n).length = n := by
  induction n generalizing lo with
  | zero => rfl
  | succ n ih => simp [ascIntList, ih]

theorem mem_ascIntList {x lo : Int} {n : Nat} :
    x ∈ ascIntList lo n ↔ lo ≤ x ∧ x < lo + n := by
  induction n generalizing lo with
  | zero => simp [ascIntList]
  | succ n ih =>
    simp only [ascIntList, List.mem_cons, ih]
    constructor
    · rintro (rfl | ⟨h1, h2⟩) <;> constructor <;> omega
    · rintro ⟨h1, h2⟩
      rcases eq_or_lt_of_le h1 with rfl | hlt
      · exact Or.inl rfl
      · exact Or.inr ⟨by omega, by omega⟩

theorem ascIntList_pairwise_lt (lo : Int) (n : Nat) :
    (ascIntList lo n).Pairwise (· < ·) := by
  induction n generalizing lo with
  | zero => exact List.Pairwise.nil
  | succ n ih =>
    refine List.Pairwise.cons (fun x hx => ?_) (ih (lo + 1))
    have := mem_ascIntList.mp hx
    omega

theorem ascIntList_sorted_le (lo : Int) (n : Nat) :
    (ascIntList lo n).Pairwise (· ≤ ·) :=
  (ascIntList_pairwise_lt lo n).imp le_of_lt

theorem ascIntList_nodup (lo : Int) (n : Nat) : (ascIntList lo n).Nodup :=
  (ascIntList_pairwise_lt lo n).imp ne_of_lt

theorem ascIntList_snoc (lo : Int) (n : Nat) :
    ascIntList lo (n + 1) = ascIntList lo n ++ [lo + n] := by
  induction n generalizing lo with
  | zero => simp [ascIntList]
  | succ n ih =>
    calc ascIntList lo (n + 2) = lo :: ascIntList (lo + 1) (n + 1) := rfl
      _ = lo :: (ascIntList (lo + 1) n ++ [lo + 1 + n]) := by rw [ih]
      _ = ascIntList lo (n + 1) ++ [lo + (n + 1)] := by
          simp [ascIntList]; ring_nf

theorem ascIntList_map_add_one (lo : Int) (n : Nat) :
    (ascIntList lo n).map (· + 1) = ascIntList (lo + 1) n := by
  induction n generalizing lo with
  | zero => rfl
  | succ n ih => simp only [ascIntList, List.map_cons, ih]

theorem ascIntList_map_sub_one (lo : Int) (n : Nat) :
    (ascIntList lo n).map (· - 1) = ascIntList (lo - 1) n := by
  induction n generalizing lo with
  | zero => rfl
  | succ n ih => simp only [ascIntList, List.map_cons, ih]; ring_nf

theorem ascIntList_erase_head (lo : Int) (n : Nat) :
    (ascIntList lo (n + 1)).erase lo = ascIntList (lo + 1) n := by
  simp [ascIntList]

theorem ascIntList_erase_last (lo : Int) (n : Nat) :
    (ascIntList lo (n + 1)).erase (lo + n) = ascIntList lo n := by
  induction n generalizing lo with
  | zero => simp [ascIntList]
  | succ n ih =>
    have hne : lo ≠ lo + (n + 1 : Nat) := by omega
    calc (ascIntList lo (n + 2)).erase (lo + (n + 1 : Nat))
        = lo :: (ascIntList (lo + 1) (n + 1)).erase (lo + (n + 1 : Nat)) := by
          rw [show ascIntList lo (n + 2) = lo :: ascIntList (lo + 1) (n + 1) from rfl,
            List.erase_cons_tail]
          simp only [beq_iff_eq]
          omega
      _ = lo :: ascIntList (lo + 1) n := by
          rw [show (lo + (n + 1 : Nat) : Int) = (lo + 1) + n by push_cast; ring, ih]
      _ = ascIntList lo (n + 1) := rfl

/-- The reassignment loop on a combined list ending with the moved role: when
the other roles occupy ascending positions `p+1, …, p+len`, each of them is
shifted down one slot and the moved role receives the next position. -/
theorem assignWalk_append (rr : Role) :
    ∀ (s : List Role) (p hi : Int),
      s.map Role.position = ascIntList (p + 1) s.length →
      p + s.length ≤ hi + 1 →
      assignWalk (s ++ [rr]) p hi =
        s.map (fun x => ⟨x.id, x.position - 1⟩) ++ [⟨rr.id, p + s.length⟩] := by
  intro s
  induction s with
  | nil =>
    intro p hi _ hle
    simp only [List.length_nil, Int.natCast_zero, Int.add_zero] at hle ⊢
    simp [assignWalk, hle]
  | cons x s ih =>
    intro p hi hpos hle
    simp only [List.length_cons, List.map_cons, ascIntList] at hpos hle
    obtain ⟨hx, hs⟩ := List.cons_eq_cons.mp hpos
    have hguard : p ≤ hi + 1 := by push_cast at hle; omega
    have hrec := ih (p + 1) hi (by simpa using hs) (by push_cast at hle ⊢; omega)
    simp only [List.cons_append, assignWalk, hguard, if_pos, List.map_cons,
      List.length_cons, hx]
    push_cast
    rw [show p + 1 - 1 = p by ring,
      show p + ((s.length : Int) + 1) = p + 1 + s.length by ring]
    exact congrArg (List.cons _) hrec

/-- The reassignment loop on elements whose positions are the ascending run
starting at `p`, walked from `p+1`: every element is shifted up one slot. -/
theorem assignWalk_shift_up :
    ∀ (s : List Role) (p hi : Int),
      s.map Role.position = ascIntList p s.length →
      p + s.length ≤ hi + 1 →
      assignWalk s (p + 1) hi = s.map (fun x => ⟨x.id, x.position + 1⟩) := by
  intro s
  induction s with
  | nil => intro p hi _ _; rfl
  | cons x s ih =>
    intro p hi hpos hle
    simp only [List.length_cons, List.map_cons, ascIntList] at hpos hle
    obtain ⟨hx, hs⟩ := List.cons_eq_cons.mp hpos
    have hguard : p + 1 ≤ hi + 1 := by push_cast at hle; omega
    have hrec := ih (p + 1) hi hs (by push_cast at hle ⊢; omega)
    simp only [assignWalk, hguard, if_pos, hrec, List.map_cons, hx]

/-- The reassignment loop on a combined list starting with the moved role:
the moved role receives position `p`, the rest are shifted up one slot. -/
theorem assignWalk_cons (rr : Role) (s : List Role) (p hi : Int)
    (hpos : s.map Role.position = ascIntList p s.length)
    (hle : p + s.length ≤ hi + 1) :
    assignWalk (rr :: s) p hi = ⟨rr.id, p⟩ :: s.map (fun x => ⟨x.id, x.position + 1⟩) := by
  have hguard : p ≤ hi + 1 := by omega
  simp only [assignWalk, hguard, if_pos]
  rw [assignWalk_shift_up s p hi hpos hle]

/-- Filtering out the one role carrying `r.id` (ids being unique) is, up to
permutation, erasing `r`. -/
theorem filter_id_ne_perm_erase {l : List Role} {r : Role}
    (hnd : (l.map Role.id).Nodup) (hr : r ∈ l) :
    List.Perm (l.filter (fun x => x.id != r.id)) (l.erase r) := by
  induction l with
  | nil => cases hr
  | cons a tl ih =>
    simp only [List.map_cons, List.nodup_cons] at hnd
    obtain ⟨ha, htl⟩ := hnd
    by_cases har : a = r
    · subst har
      rw [List.erase_cons_head, List.filter_cons_of_neg (by simp)]
      rw [List.filter_eq_self.mpr (fun x hx => by
        simp only [bne_iff_ne, ne_eq]
        exact fun h => ha (h ▸ List.mem_map_of_mem Role.id hx))]
    · have hrtl : r ∈ tl := by
        rcases List.mem_cons.mp hr with h | h
        · exact (har h.symm).elim
        · exact h
      have haid : a.id ≠ r.id := fun h =>
        ha (h ▸ List.mem_map_of_mem Role.id hrtl)
      have hne : ¬(a == r) := by
        simp only [beq_iff_eq]
        intro h
        exact har h
      rw [List.filter_cons_of_pos (by simpa using haid),
        List.erase_cons_tail hne]
      exact (ih htl hrtl).cons a

/-- `find?` by id on an id-unique edit list locates the member itself. -/
theorem find?_id_of_mem {es : List RoleMove} {e : RoleMove}
    (hnd : (es.map RoleMove.id).Nodup) (he : e ∈ es) :
    es.find? (fun x => x.id == e.id) = some e := by
  induction es with
  | nil => cases he
  | cons a tl ih =>
    simp only [List.map_cons, List.nodup_cons] at hnd
    obtain ⟨ha, htl⟩ := hnd
    rcases List.mem_cons.mp he with rfl | hetl
    · rw [List.find?_cons_of_pos _ (by simp)]
    · have haid : a.id ≠ e.id := fun h =>
        ha (h ▸ List.mem_map_of_mem RoleMove.id hetl)
      rw [List.find?_cons_of_neg _ (by simpa using haid), ih htl hetl]

/-- `find?` by id misses when no edit carries the id. -/
theorem find?_id_eq_none {es : List RoleMove} {i : String}
    (h : ∀ e ∈ es, e.id ≠ i) : es.find? (fun x => x.id == i) = none := by
  apply List.find?_eq_none.mpr
  intro x hx
  simpa using h x hx

/-- The collection loop factored through the range filter. -/
theorem collectEdited_eq_filter_filter (rs : List Role) (rid : String) (lo hi : Int) :
    collectEdited rs rid lo hi =
      (rs.filter (inPosRange lo hi)).filter (fun x => x.id != rid) := by
  rw [List.filter_filter]
  rfl

/-- Core sorting fact: when the positions occupied inside `[lo, hi]` are a
permutation of the full run `lo, …`, the collected-and-sorted other roles
occupy exactly that run with the moved role's position erased. -/
theorem sortedCollect_map_pos (g : Guild) (r : Role) (lo hi : Int) (n : Nat)
    (hmem : r ∈ g.roles)
    (hnodup : (g.roles.map Role.id).Nodup)
    (hlo : lo ≤ r.position) (hhi : r.position ≤ hi)
    (hocc : List.Perm (rangeOccupancy g lo hi) (ascIntList lo n)) :
    (sortEditedRoles (collectEdited g.roles r.id lo hi)).map Role.position =
      (ascIntList lo n).erase r.position := by
  set F := g.roles.filter (inPosRange lo hi) with hF
  have hrF : r ∈ F := List.mem_filter.mpr ⟨hmem, by simp [inPosRange, hlo, hhi]⟩
  have hndF : (F.map Role.id).Nodup :=
    List.Nodup.sublist (List.Sublist.map Role.id (List.filter_sublist g.roles)) hnodup
  have hperm1 : List.Perm (collectEdited g.roles r.id lo hi) (F.erase r) := by
    rw [collectEdited_eq_filter_filter]
    exact filter_id_ne_perm_erase hndF hrF
  have hSE : List.Perm (sortEditedRoles (collectEdited g.roles r.id lo hi)) (F.erase r) :=
    (List.perm_insertionSort rolePosLe _).trans hperm1
  have hcurmem : r.position ∈ ascIntList lo n :=
    hocc.mem_iff.mp (List.mem_map_of_mem Role.position hrF)
  have hconsF : List.Perm (F.map Role.position)
      (r.position :: (F.erase r).map Role.position) :=
    (List.perm_cons_erase hrF).map Role.position
  have hconsA : List.Perm (ascIntList lo n)
      (r.position :: (ascIntList lo n).erase r.position) :=
    List.perm_cons_erase hcurmem
  have herase : List.Perm ((F.erase r).map Role.position)
      ((ascIntList lo n).erase r.position) := by
    have h2 : List.Perm (r.position :: (F.erase r).map Role.position)
        (r.position :: (ascIntList lo n).erase r.position) :=
      (hconsF.symm.trans hocc).trans hconsA
    exact h2.cons_inv
  have hpermPos : List.Perm
      ((sortEditedRoles (collectEdited g.roles r.id lo hi)).map Role.position)
      ((ascIntList lo n).erase r.position) :=
    (hSE.map Role.position).trans herase
  have hs1 : List.Sorted (fun a b : Int => a ≤ b)
      ((sortEditedRoles (collectEdited g.roles r.id lo hi)).map Role.position) :=
    List.pairwise_map.mpr (List.sorted_insertionSort rolePosLe _)
  have hs2 : List.Sorted (fun a b : Int => a ≤ b) ((ascIntList lo n).erase r.position) :=
    List.Pairwise.sublist (List.erase_sublist _ _) (ascIntList_sorted_le lo n)
  exact List.eq_of_perm_of_sorted hpermPos hs1 hs2

/-- Applying an id-unique edit batch that sends the moved role to `t` and each
other in-range role one slot over realizes the `moveShift` description. -/
theorem applyEdits_spec (rs : List Role) (r : Role) (t lo hi : Int)
    (edits : List RoleMove)
    (hnodup : (rs.map Role.id).Nodup)
    (hnd : (edits.map RoleMove.id).Nodup)
    (hr : (⟨r.id, t⟩ : RoleMove) ∈ edits)
    (hothers : ∀ x ∈ rs, x.id ≠ r.id → inPosRange lo hi x = true →
      (⟨x.id, if t = lo then x.position + 1 else x.position - 1⟩ : RoleMove) ∈ edits)
    (hall : ∀ e ∈ edits, e.id = r.id ∨ ∃ x ∈ rs, x.id = e.id ∧ inPosRange lo hi x = true) :
    applyEdits edits rs = rs.map (moveShift r.id t lo hi) := by
  apply List.map_congr_left
  intro x hx
  show (match edits.find? (fun e => e.id == x.id) with
    | some e => { x with position := e.position }
    | none => x) = moveShift r.id t lo hi x
  by_cases hid : x.id = r.id
  · have hfind : edits.find? (fun e => e.id == x.id) = some ⟨r.id, t⟩ := by
      rw [hid]
      exact find?_id_of_mem hnd hr
    rw [hfind]
    simp [moveShift, hid]
  · by_cases hrange : inPosRange lo hi x = true
    · have hedit := hothers x hx hid hrange
      have hfind : edits.find? (fun e => e.id == x.id) = some
          ⟨x.id, if t = lo then x.position + 1 else x.position - 1⟩ :=
        find?_id_of_mem hnd hedit
      rw [hfind]
      simp [moveShift, hid, hrange]
    · have hfind : edits.find? (fun e => e.id == x.id) = none := by
        apply find?_id_eq_none
        intro e he hei
        rcases hall e he with h | ⟨y, hy, hyid, hyr⟩
        · exact hid (hei ▸ h)
        · have hyx : y = x := List.inj_on_of_nodup_map hnodup hy hx (by rw [hyid, hei])
          exact hrange (hyx ▸ hyr)
      rw [hfind]
      simp [moveShift, hid, hrange]

/-- `Role.Move` unfolded on the success path. -/
theorem moveRole_eq_ok (g : Guild) (r : Role) (t : Int) (ht : 0 < t) (hdef : r.id ≠ g.id) :
    g.moveRole r t = .ok
      (assignWalk
        (if t = min t r.position
          then r :: sortEditedRoles
            (collectEdited g.roles r.id (min t r.position) (max t r.position))
          else sortEditedRoles
            (collectEdited g.roles r.id (min t r.position) (max t r.position)) ++ [r])
        (min t r.position) (max t r.position),
       ⟨g.id, applyEdits
         (assignWalk
           (if t = min t r.position
             then r :: sortEditedRoles
               (collectEdited g.roles r.id (min t r.position) (max t r.position))
             else sortEditedRoles
               (collectEdited g.roles r.id (min t r.position) (max t r.position)) ++ [r])
           (min t r.position) (max t r.position)) g.roles⟩) := by
  simp only [Guild.moveRole]
  rw [if_neg (by omega), if_neg (by simp [Role.isDefault, hdef])]

/-- Full characterization of `Role.Move` on a well-formed range (role ids
unique, every position of `[lo, hi]` occupied by exactly one role): the
recorded edits assign the ascending contiguous run `lo, …, hi`, the moved
role's single edit assigns exactly the target, and the in-memory update is
pointwise `moveShift`. -/
theorem moveRole_spec (g : Guild) (r : Role) (t : Int)
    (hmem : r ∈ g.roles) (ht : 0 < t) (hdef : r.id ≠ g.id)
    (hnodup : (g.roles.map Role.id).Nodup)
    (hocc : List.Perm (rangeOccupancy g (min t r.position) (max t r.position))
      (ascIntList (min t r.position) ((max t r.position + 1 - min t r.position).toNat))) :
    ∃ edits : List RoleMove,
      g.moveRole r t = .ok (edits,
        ⟨g.id, g.roles.map (moveShift r.id t (min t r.position) (max t r.position))⟩)
      ∧ edits.map RoleMove.position =
          ascIntList (min t r.position) ((max t r.position + 1 - min t r.position).toNat)
      ∧ edits.filter (fun e => e.id == r.id) = [⟨r.id, t⟩] := by
  rw [moveRole_eq_ok g r t ht hdef]
  by_cases ht2 : t ≤ r.position
  · -- toward the low end (or in place): lo = t, hi = r.position
    rw [min_eq_left ht2, max_eq_right ht2] at hocc ⊢
    set S := sortEditedRoles (collectEdited g.roles r.id t r.position) with hS
    set m := (r.position - t).toNat with hm
    have hnn : (r.position + 1 - t).toNat = m + 1 := by omega
    have herase : (ascIntList t ((r.position + 1 - t).toNat)).erase r.position
        = ascIntList t m := by
      rw [hnn, show r.position = t + (m : Int) by omega]
      exact ascIntList_erase_last t m
    have hsorted : S.map Role.position = ascIntList t m :=
      (sortedCollect_map_pos g r t r.position ((r.position + 1 - t).toNat)
        hmem hnodup ht2 le_rfl hocc).trans herase
    have hlen : S.length = m := by
      have h2 := congrArg List.length hsorted
      simpa [ascIntList_length] using h2
    have hwalk : assignWalk (r :: S) t r.position
        = ⟨r.id, t⟩ :: S.map (fun x => ⟨x.id, x.position + 1⟩) := by
      refine assignWalk_cons r S t r.position ?_ ?_
      · rw [hlen]; exact hsorted
      · rw [hlen]; omega
    rw [if_pos rfl, hwalk]
    have hmemS : ∀ x : Role, x ∈ S ↔ x ∈ collectEdited g.roles r.id t r.position :=
      fun x => (List.perm_insertionSort rolePosLe _).mem_iff
    have hSprop : ∀ x ∈ S, x.id ≠ r.id ∧ inPosRange t r.position x = true := by
      intro x hx
      have hxE := List.mem_filter.mp ((hmemS x).mp hx)
      have hpred := hxE.2
      simp only [Bool.and_eq_true, bne_iff_ne, ne_eq] at hpred
      exact ⟨hpred.1, hpred.2⟩
    have hSroles : ∀ x ∈ S, x ∈ g.roles :=
      fun x hx => (List.mem_filter.mp ((hmemS x).mp hx)).1
    have hndS : (S.map Role.id).Nodup := by
      have hpE : List.Perm (S.map Role.id)
          ((collectEdited g.roles r.id t r.position).map Role.id) :=
        (List.perm_insertionSort rolePosLe _).map Role.id
      exact hpE.nodup_iff.mpr (List.Nodup.sublist
        (List.Sublist.map Role.id (List.filter_sublist g.roles)) hnodup)
    have hmape : (⟨r.id, t⟩ :: S.map (fun x => ⟨x.id, x.position + 1⟩)
        : List RoleMove).map RoleMove.id = r.id :: S.map Role.id := by
      simp only [List.map_cons, List.map_map]
      rfl
    have hndE : ((⟨r.id, t⟩ :: S.map (fun x => ⟨x.id, x.position + 1⟩)
        : List RoleMove).map RoleMove.id).Nodup := by
      rw [hmape]
      refine List.nodup_cons.mpr ⟨?_, hndS⟩
      intro hmm
      obtain ⟨y, hyS, hyid⟩ := List.mem_map.mp hmm
      exact (hSprop y hyS).1 hyid
    have happly : applyEdits (⟨r.id, t⟩ :: S.map (fun x => ⟨x.id, x.position + 1⟩))
        g.roles = g.roles.map (moveShift r.id t t r.position) := by
      refine applyEdits_spec g.roles r t t r.position _ hnodup hndE
        (List.mem_cons_self _ _) ?_ ?_
      · intro x hx hxid hxr
        rw [if_pos rfl]
        refine List.mem_cons_of_mem _ ?_
        have hxE : x ∈ collectEdited g.roles r.id t r.position := by
          refine List.mem_filter.mpr ⟨hx, ?_⟩
          simp [hxid, hxr]
        exact List.mem_map_of_mem _ ((hmemS x).mpr hxE)
      · intro e he
        rcases List.mem_cons.mp he with rfl | hetail
        · exact Or.inl rfl
        · obtain ⟨y, hyS, rfl⟩ := List.mem_map.mp hetail
          exact Or.inr ⟨y, hSroles y hyS, rfl, (hSprop y hyS).2⟩
    refine ⟨⟨r.id, t⟩ :: S.map (fun x => ⟨x.id, x.position + 1⟩), ?_, ?_, ?_⟩
    · rw [happly]
    · rw [hnn, List.map_cons]
      have hcomp : (S.map (fun x => (⟨x.id, x.position + 1⟩ : RoleMove))).map
          RoleMove.position = (S.map Role.position).map (fun q => q + 1) := by
        rw [List.map_map, List.map_map]
        rfl
      rw [hcomp, hsorted, ascIntList_map_add_one]
      rfl
    · rw [List.filter_cons_of_pos (by simp)]
      rw [List.filter_eq_nil_iff.mpr ?_]
      intro e he
      obtain ⟨y, hyS, rfl⟩ := List.mem_map.mp he
      simpa using (hSprop y hyS).1
  · -- toward the high end: lo = r.position, hi = t
    have hgt : r.position < t := by omega
    rw [min_eq_right (le_of_lt hgt), max_eq_left (le_of_lt hgt)] at hocc ⊢
    set S := sortEditedRoles (collectEdited g.roles r.id r.position t) with hS
    set m := (t - r.position).toNat with hm
    have hnn : (t + 1 - r.position).toNat = m + 1 := by omega
    have herase : (ascIntList r.position ((t + 1 - r.position).toNat)).erase r.position
        = ascIntList (r.position + 1) m := by
      rw [hnn]
      exact ascIntList_erase_head r.position m
    have hsorted : S.map Role.position = ascIntList (r.position + 1) m :=
      (sortedCollect_map_pos g r r.position t ((t + 1 - r.position).toNat)
        hmem hnodup le_rfl (le_of_lt hgt) hocc).trans herase
    have hlen : S.length = m := by
      have h2 := congrArg List.length hsorted
      simpa [ascIntList_length] using h2
    have hwalk : assignWalk (S ++ [r]) r.position t
        = S.map (fun x => ⟨x.id, x.position - 1⟩) ++ [⟨r.id, t⟩] := by
      have h3 := assignWalk_append r S r.position t
        (by rw [hlen]; exact hsorted) (by rw [hlen]; omega)
      rw [h3, hlen, show r.position + (m : Int) = t by omega]
    rw [if_neg (by omega), hwalk]
    have hmemS : ∀ x : Role, x ∈ S ↔ x ∈ collectEdited g.roles r.id r.position t :=
      fun x => (List.perm_insertionSort rolePosLe _).mem_iff
    have hSprop : ∀ x ∈ S, x.id ≠ r.id ∧ inPosRange r.position t x = true := by
      intro x hx
      have hxE := List.mem_filter.mp ((hmemS x).mp hx)
      have hpred := hxE.2
      simp only [Bool.and_eq_true, bne_iff_ne, ne_eq] at hpred
      exact ⟨hpred.1, hpred.2⟩
    have hSroles : ∀ x ∈ S, x ∈ g.roles :=
      fun x hx => (List.mem_filter.mp ((hmemS x).mp hx)).1
    have hndS : (S.map Role.id).Nodup := by
      have hpE : List.Perm (S.map Role.id)
          ((collectEdited g.roles r.id r.position t).map Role.id) :=
        (List.perm_insertionSort rolePosLe _).map Role.id
      exact hpE.nodup_iff.mpr (List.Nodup.sublist
        (List.Sublist.map Role.id (List.filter_sublist g.roles)) hnodup)
    have hmape : ((S.map (fun x => ⟨x.id, x.position - 1⟩) ++ [⟨r.id, t⟩])
        : List RoleMove).map RoleMove.id = S.map Role.id ++ [r.id] := by
      simp only [List.map_append, List.map_map, List.map_cons, List.map_nil]
      rfl
    have hndE : (((S.map (fun x => ⟨x.id, x.position - 1⟩) ++ [⟨r.id, t⟩])
        : List RoleMove).map RoleMove.id).Nodup := by
      rw [hmape]
      refine List.nodup_append.mpr ⟨hndS, List.nodup_singleton _, ?_⟩
      intro a haS haR
      obtain ⟨y, hyS, hyid⟩ := List.mem_map.mp haS
      rw [List.mem_singleton] at haR
      exact (hSprop y hyS).1 (hyid.trans haR)
    have happly : applyEdits (S.map (fun x => ⟨x.id, x.position - 1⟩) ++ [⟨r.id, t⟩])
        g.roles = g.roles.map (moveShift r.id t r.position t) := by
      refine applyEdits_spec g.roles r t r.position t _ hnodup hndE
        (List.mem_append_right _ (List.mem_singleton_self _)) ?_ ?_
      · intro x hx hxid hxr
        rw [if_neg (by omega)]
        refine List.mem_append_left _ ?_
        have hxE : x ∈ collectEdited g.roles r.id r.position t := by
          refine List.mem_filter.mpr ⟨hx, ?_⟩
          simp [hxid, hxr]
        exact List.mem_map_of_mem _ ((hmemS x).mpr hxE)
      · intro e he
        rcases List.mem_append.mp he with hel | her
        · obtain ⟨y, hyS, rfl⟩ := List.mem_map.mp hel
          exact Or.inr ⟨y, hSroles y hyS, rfl, (hSprop y hyS).2⟩
        · rw [List.mem_singleton] at her
          subst her
          exact Or.inl rfl
    refine ⟨S.map (fun x => ⟨x.id, x.position - 1⟩) ++ [⟨r.id, t⟩], ?_, ?_, ?_⟩
    · rw [happly]
    · rw [hnn, List.map_append]
      have hcomp : (S.map (fun x => (⟨x.id, x.position - 1⟩ : RoleMove))).map
          RoleMove.position = (S.map Role.position).map (fun q => q - 1) := by
        rw [List.map_map, List.map_map]
        rfl
      rw [hcomp, hsorted, ascIntList_map_sub_one,
        show r.position + 1 - 1 = r.position by ring]
      have hsnoc := ascIntList_snoc r.position m
      rw [show ((⟨r.id, t⟩ : RoleMove) :: []).map RoleMove.position = [t] from rfl,
        show (t : Int) = r.position + (m : Int) by omega, ← hsnoc]
    · rw [List.filter_append]
      rw [List.filter_eq_nil_iff.mpr ?_, List.filter_cons_of_pos (by simp)]
      · rfl
      · intro e he
        obtain ⟨y, hyS, rfl⟩ := List.mem_map.mp he
        simpa using (hSprop y hyS).1

/-- `moveShift` never touches the id field. -/
theorem moveShift_id (rid : String) (t lo hi : Int) (x : Role) :
    (moveShift rid t lo hi x).id = x.id := by
  unfold moveShift
  by_cases h1 : x.id = rid
  · rw [if_pos h1]
  · rw [if_neg h1]
    by_cases h2 : inPosRange lo hi x = true
    · rw [if_pos h2]
    · rw [if_neg h2]

/-- Every recorded edit names one of the combined roles. -/
theorem assignWalk_id_mem :
    ∀ (c : List Role) (p hi : Int) (e : RoleMove),
      e ∈ assignWalk c p hi → ∃ x ∈ c, e.id = x.id := by
  intro c
  induction c with
  | nil => intro p hi e he; cases he
  | cons a rest ih =>
    intro p hi e he
    unfold assignWalk at he
    by_cases hg : p ≤ hi + 1
    · rw [if_pos hg] at he
      rcases List.mem_cons.mp he with rfl | htl
      · exact ⟨a, List.mem_cons_self a rest, rfl⟩
      · obtain ⟨x, hx, hex⟩ := ih (p + 1) hi e htl
        exact ⟨x, List.mem_cons_of_mem a hx, hex⟩
    · rw [if_neg hg] at he
      cases he

/-- Under exact occupancy of `[lo, hi]`, the positions of the in-range roles
other than the moved one are the full run with the moved position erased. -/
theorem erase_occupancy_perm (g : Guild) (r : Role) (lo hi : Int) (n : Nat)
    (hmem : r ∈ g.roles)
    (hlo : lo ≤ r.position) (hhi : r.position ≤ hi)
    (hocc : List.Perm (rangeOccupancy g lo hi) (ascIntList lo n)) :
    List.Perm (((g.roles.filter (inPosRange lo hi)).erase r).map Role.position)
      ((ascIntList lo n).erase r.position) := by
  have hrF : r ∈ g.roles.filter (inPosRange lo hi) :=
    List.mem_filter.mpr ⟨hmem, by simp [inPosRange, hlo, hhi]⟩
  have hcurmem : r.position ∈ ascIntList lo n :=
    hocc.mem_iff.mp (List.mem_map_of_mem Role.position hrF)
  have h2 : List.Perm
      (r.position :: ((g.roles.filter (inPosRange lo hi)).erase r).map Role.position)
      (r.position :: (ascIntList lo n).erase r.position) :=
    ((((List.perm_cons_erase hrF).map Role.position)).symm.trans hocc).trans
      (List.perm_cons_erase hcurmem)
  exact h2.cons_inv

/-- C9: the claim says `move` on the default role fails with the
unmovable-default error for every target, including targets ≤ 0; but
`Role.Move` checks `position <= 0` first, so target `0` on the default role
returns `ErrRolePositionBounds`, not `ErrUnmovableDefaultRole`. -/
theorem c9_counterexample :
    (⟨"G", [⟨"G", 1⟩]⟩ : Guild).moveRole ⟨"G", 1⟩ 0
      = .error .rolePositionBounds
    ∧ MoveError.rolePositionBounds ≠ MoveError.unmovableDefaultRole := by
  exact ⟨rfl, by decide⟩

/-- C9 (amended): moving the default role fails for every target — with the
bounds error when the target is ≤ 0 (that check runs first) and with the
unmovable-default error for every positive target, including the role's
current position.  Both error returns happen before any position mutation and
before any edit batch is built or submitted, which the error result (carrying
no edits and no updated guild) reflects. -/
theorem c9_default_move_error_amended (g : Guild) (r : Role) (t : Int)
    (hdef : r.id = g.id) :
    g.moveRole r t = .error
      (if t ≤ 0 then .rolePositionBounds else .unmovableDefaultRole) := by
  by_cases h : t ≤ 0
  · simp [Guild.moveRole, h]
  · simp [Guild.moveRole, h, Role.isDefault, hdef]

/-- Witness for the amended C9 theorem: the default role of a one-role guild
and the positive target 5. -/
theorem c9_witness :
    (⟨"G", 1⟩ : Role).id = (⟨"G", [⟨"G", 1⟩]⟩ : Guild).id
    ∧ (⟨"G", [⟨"G", 1⟩]⟩ : Guild).moveRole ⟨"G", 1⟩ 5
      = .error (if (5 : Int) ≤ 0 then .rolePositionBounds else .unmovableDefaultRole) :=
  ⟨rfl, c9_default_move_error_amended _ ⟨"G", 1⟩ 5 rfl⟩

/-- C4: on the collection with positions `[0,1,2,3,4]`, moving the role at
position 2 to target 4 produces the edits `(idAt3 → 2), (idAt4 → 3),
(moved → 4)` — not `(idAt4 → 2), (idAt3 → 3), (moved → 4)` as the claim
states: `sort.Sort(sort.Reverse(…))` over `Roles.Less` (which is `>`) sorts
the collected roles by ascending position, not descending. -/
theorem c4_counterexample :
    (match (⟨"g", [⟨"g", 0⟩, ⟨"a", 1⟩, ⟨"b", 2⟩, ⟨"c", 3⟩, ⟨"d", 4⟩]⟩ : Guild).moveRole
        ⟨"b", 2⟩ 4 with
      | .ok (e, _) => e
      | .error _ => []) = [⟨"c", 2⟩, ⟨"d", 3⟩, ⟨"b", 4⟩]
    ∧ ([⟨"c", 2⟩, ⟨"d", 3⟩, ⟨"b", 4⟩] : List RoleMove)
        ≠ [⟨"d", 2⟩, ⟨"c", 3⟩, ⟨"b", 4⟩] := by
  exact ⟨rfl, by decide⟩

/-- C4 (amended): on the collection with positions `[0,1,2,3,4]`, moving the
role at position 2 to target 4 collects the roles at positions 3 and 4, sorts
them *ascending* to `[pos3, pos4]`, appends the moved role last (target equals
the range maximum), and records exactly `(idAt3 → 2), (idAt4 → 3),
(moved → 4)` in that order. -/
theorem c4_move_trace_amended :
    sortEditedRoles (collectEdited
      [⟨"g", 0⟩, ⟨"a", 1⟩, ⟨"b", 2⟩, ⟨"c", 3⟩, ⟨"d", 4⟩] "b" 2 4)
      = [⟨"c", 3⟩, ⟨"d", 4⟩]
    ∧ (⟨"g", [⟨"g", 0⟩, ⟨"a", 1⟩, ⟨"b", 2⟩, ⟨"c", 3⟩, ⟨"d", 4⟩]⟩ : Guild).moveRole
        ⟨"b", 2⟩ 4
      = .ok ([⟨"c", 2⟩, ⟨"d", 3⟩, ⟨"b", 4⟩],
        ⟨"g", [⟨"g", 0⟩, ⟨"a", 1⟩, ⟨"b", 4⟩, ⟨"c", 2⟩, ⟨"d", 3⟩]⟩) := by
  exact ⟨rfl, rfl⟩

/-- C3: with roles `r` at 1, `a` at 1 and `b` at 2 (a duplicated position),
moving `r` to target 2 succeeds but assigns the moved role position 3, one
past the target: the recorded edit for `r` is `(r → 3)`, and no role occupies
the target slot 2's relative place with `r` in it. -/
theorem c3_counterexample :
    (⟨"G", [⟨"r", 1⟩, ⟨"a", 1⟩, ⟨"b", 2⟩]⟩ : Guild).moveRole ⟨"r", 1⟩ 2
      = .ok ([⟨"a", 1⟩, ⟨"b", 2⟩, ⟨"r", 3⟩], ⟨"G", [⟨"r", 3⟩, ⟨"a", 1⟩, ⟨"b", 2⟩]⟩)
    ∧ ([⟨"a", 1⟩, ⟨"b", 2⟩, ⟨"r", 3⟩] : List RoleMove).filter
        (fun e => e.id == "r") ≠ [⟨"r", 2⟩]
    ∧ (⟨"r", 2⟩ : Role) ∉ ([⟨"r", 3⟩, ⟨"a", 1⟩, ⟨"b", 2⟩] : List Role) := by
  exact ⟨rfl, by decide, by decide⟩

/-- C3 (amended): when role ids are unique and every position of the affected
range `[lo, hi]` is occupied by exactly one role, a successful move records a
batch whose positions are exactly the strictly increasing contiguous run
`lo, …, hi`, the moved role's single edit assigns exactly the target, and the
moved role ends up at the target position. -/
theorem c3_move_postcondition_amended (g : Guild) (r : Role) (t : Int)
    (hmem : r ∈ g.roles) (ht : 0 < t) (hdef : r.id ≠ g.id)
    (hnodup : (g.roles.map Role.id).Nodup)
    (hocc : List.Perm (rangeOccupancy g (min t r.position) (max t r.position))
      (ascIntList (min t r.position) ((max t r.position + 1 - min t r.position).toNat))) :
    ∃ edits g', g.moveRole r t = .ok (edits, g')
      ∧ edits.map RoleMove.position =
          ascIntList (min t r.position) ((max t r.position + 1 - min t r.position).toNat)
      ∧ edits.filter (fun e => e.id == r.id) = [⟨r.id, t⟩]
      ∧ (⟨r.id, t⟩ : Role) ∈ g'.roles := by
  obtain ⟨edits, heq, hpos, hfil⟩ := moveRole_spec g r t hmem ht hdef hnodup hocc
  refine ⟨edits, _, heq, hpos, hfil, ?_⟩
  have hsh : moveShift r.id t (min t r.position) (max t r.position) r = ⟨r.id, t⟩ := by
    simp [moveShift]
  exact hsh ▸ List.mem_map_of_mem _ hmem

/-- Witness for the amended C3 theorem: a guild with positions `0,1,2,3`,
moving the role at 1 to target 3. -/
theorem c3_witness :
    (⟨"x", 1⟩ : Role) ∈ (⟨"G", [⟨"G", 0⟩, ⟨"x", 1⟩, ⟨"y", 2⟩, ⟨"z", 3⟩]⟩ : Guild).roles
    ∧ (∃ edits g',
        (⟨"G", [⟨"G", 0⟩, ⟨"x", 1⟩, ⟨"y", 2⟩, ⟨"z", 3⟩]⟩ : Guild).moveRole ⟨"x", 1⟩ 3
          = .ok (edits, g')
        ∧ edits.map RoleMove.position =
            ascIntList (min 3 (1 : Int)) ((max 3 (1 : Int) + 1 - min 3 (1 : Int)).toNat)
        ∧ edits.filter (fun e => e.id == "x") = [⟨"x", 3⟩]
        ∧ (⟨"x", 3⟩ : Role) ∈ g'.roles) :=
  ⟨by decide, c3_move_postcondition_amended _ ⟨"x", 1⟩ 3 (by decide) (by decide)
    (by decide) (by decide) (by decide)⟩

/-- C2: moving a non-default role whose position range reaches the default
role's position does reassign the default role: with the default at 1 and `r`
at 0, moving `r` to 2 records the edit `("G" → 0)` naming the default and
mutates its position from 1 to 0. -/
theorem c2_counterexample :
    (⟨"G", [⟨"G", 1⟩, ⟨"r", 0⟩]⟩ : Guild).moveRole ⟨"r", 0⟩ 2
      = .ok ([⟨"G", 0⟩, ⟨"r", 1⟩], ⟨"G", [⟨"G", 0⟩, ⟨"r", 1⟩]⟩)
    ∧ (⟨"G", 0⟩ : RoleMove) ∈ ([⟨"G", 0⟩, ⟨"r", 1⟩] : List RoleMove)
    ∧ (⟨"G", 1⟩ : Role) ∉ ([⟨"G", 0⟩, ⟨"r", 1⟩] : List Role) := by
  exact ⟨rfl, by decide, by decide⟩

/-- C2 (amended): provided no role carrying the collection's id has a position
inside the affected range `[lo, hi]`, a move on a non-default role succeeds,
records no edit naming the default id, and leaves every role carrying the
default id untouched in the resulting guild. -/
theorem c2_default_frame_amended (g : Guild) (r : Role) (t : Int)
    (ht : 0 < t) (hdef : r.id ≠ g.id)
    (hout : ∀ x ∈ g.roles, x.id = g.id →
      inPosRange (min t r.position) (max t r.position) x = false) :
    ∃ edits g', g.moveRole r t = .ok (edits, g')
      ∧ (∀ e ∈ edits, e.id ≠ g.id)
      ∧ (∀ x ∈ g.roles, x.id = g.id → x ∈ g'.roles) := by
  rw [moveRole_eq_ok g r t ht hdef]
  set lo := min t r.position with hlo
  set hi := max t r.position with hhi
  set combined := (if t = lo
    then r :: sortEditedRoles (collectEdited g.roles r.id lo hi)
    else sortEditedRoles (collectEdited g.roles r.id lo hi) ++ [r]) with hcombined
  have hids : ∀ e ∈ assignWalk combined lo hi, e.id ≠ g.id := by
    intro e he
    obtain ⟨x, hxc, hex⟩ := assignWalk_id_mem combined lo hi e he
    have hxcase : x = r ∨ x ∈ collectEdited g.roles r.id lo hi := by
      by_cases hcase : t = lo
      · rw [hcombined, if_pos hcase] at hxc
        rcases List.mem_cons.mp hxc with rfl | hxS
        · exact Or.inl rfl
        · exact Or.inr ((List.perm_insertionSort rolePosLe _).mem_iff.mp hxS)
      · rw [hcombined, if_neg hcase] at hxc
        rcases List.mem_append.mp hxc with hxS | hxr
        · exact Or.inr ((List.perm_insertionSort rolePosLe _).mem_iff.mp hxS)
        · rw [List.mem_singleton] at hxr
          exact Or.inl hxr
    rcases hxcase with rfl | hxE
    · rw [hex]
      exact hdef
    · have hxf := List.mem_filter.mp hxE
      intro heg
      have hxg : x.id = g.id := hex.symm.trans heg
      have hpred := hxf.2
      simp only [Bool.and_eq_true] at hpred
      rw [hout x hxf.1 hxg] at hpred
      exact Bool.false_ne_true hpred.2
  refine ⟨assignWalk combined lo hi,
    ⟨g.id, applyEdits (assignWalk combined lo hi) g.roles⟩, rfl, hids, ?_⟩
  intro x hx hxg
  refine List.mem_map.mpr ⟨x, hx, ?_⟩
  show (match (assignWalk combined lo hi).find? (fun e => e.id == x.id) with
    | some e => { x with position := e.position }
    | none => x) = x
  rw [find?_id_eq_none (fun e he h => hids e he (h.trans hxg))]

/-- Witness for the amended C2 theorem: default at position 0, outside the
affected range `[1, 2]` of moving the role at 1 to target 2. -/
theorem c2_witness :
    (0 : Int) < 2 ∧ ("x" : String) ≠ "G"
    ∧ (∃ edits g',
        (⟨"G", [⟨"G", 0⟩, ⟨"x", 1⟩, ⟨"y", 2⟩]⟩ : Guild).moveRole ⟨"x", 1⟩ 2
          = .ok (edits, g')
        ∧ (∀ e ∈ edits, e.id ≠ "G")
        ∧ (∀ x ∈ (⟨"G", [⟨"G", 0⟩, ⟨"x", 1⟩, ⟨"y", 2⟩]⟩ : Guild).roles,
            x.id = "G" → x ∈ g'.roles)) :=
  ⟨by decide, by decide,
    c2_default_frame_amended _ ⟨"x", 1⟩ 2 (by decide) (by decide) (by decide)⟩

/-- Round trip, branch toward the low end (`t ≤ r.position`): moving `r` to
`t` and then back to its original position restores the guild. -/
theorem roundTrip_low (g : Guild) (r : Role) (t : Int)
    (hmem : r ∈ g.roles) (ht : 0 < t) (hP : 0 < r.position) (ht2 : t ≤ r.position)
    (hdef : r.id ≠ g.id) (hnodup : (g.roles.map Role.id).Nodup)
    (hocc : List.Perm (rangeOccupancy g t r.position)
      (ascIntList t ((r.position + 1 - t).toNat))) :
    ∃ e1 g1 e2 g2,
      g.moveRole r t = .ok (e1, g1)
      ∧ g1.moveRole ⟨r.id, t⟩ r.position = .ok (e2, g2)
      ∧ g2 = g := by
  obtain ⟨e1, heq1, hpos1, hfil1⟩ := moveRole_spec g r t hmem ht hdef hnodup
    (by rw [min_eq_left ht2, max_eq_right ht2]; exact hocc)
  rw [min_eq_left ht2, max_eq_right ht2] at heq1
  set f1 := moveShift r.id t t r.position with hf1
  -- shared facts about the original guild
  have hrF : r ∈ g.roles.filter (inPosRange t r.position) :=
    List.mem_filter.mpr ⟨hmem, by simp [inPosRange, ht2]⟩
  have hFpos_nodup : ((g.roles.filter (inPosRange t r.position)).map Role.position).Nodup :=
    hocc.nodup_iff.mpr (ascIntList_nodup _ _)
  have hxid_r : ∀ x ∈ g.roles, x.id = r.id → x = r :=
    fun x hx h => List.inj_on_of_nodup_map hnodup hx hmem h
  have hroles_nodup : g.roles.Nodup := List.Nodup.of_map Role.id hnodup
  have hFnodup : (g.roles.filter (inPosRange t r.position)).Nodup :=
    List.Nodup.sublist (List.filter_sublist _) hroles_nodup
  have hposne : ∀ x ∈ g.roles.filter (inPosRange t r.position), x ≠ r →
      x.position ≠ r.position :=
    fun x hxF hxr hpp => hxr (List.inj_on_of_nodup_map hFpos_nodup hxF hrF hpp)
  have hf1r : f1 r = ⟨r.id, t⟩ := by simp [hf1, moveShift]
  -- the first move keeps the affected range's occupancy
  have hrange_eq : ∀ x ∈ g.roles,
      inPosRange t r.position (f1 x) = inPosRange t r.position x := by
    intro x hx
    by_cases hid : x.id = r.id
    · have hxr : x = r := hxid_r x hx hid
      subst hxr
      rw [hf1r]
      have hL : inPosRange t x.position (⟨x.id, t⟩ : Role) = true := by
        simp only [inPosRange, Bool.and_eq_true, decide_eq_true_eq]
        omega
      have hR : inPosRange t x.position x = true := by
        simp only [inPosRange, Bool.and_eq_true, decide_eq_true_eq]
        omega
      rw [hL, hR]
    · by_cases hin : inPosRange t r.position x = true
      · have hxF : x ∈ g.roles.filter (inPosRange t r.position) :=
          List.mem_filter.mpr ⟨hx, hin⟩
        have hxner : x ≠ r := fun h => hid (h ▸ rfl)
        have hpp := hposne x hxF hxner
        have hbounds : t ≤ x.position ∧ x.position ≤ r.position := by
          simpa only [inPosRange, Bool.and_eq_true, decide_eq_true_eq] using hin
        have hf1x : f1 x = ⟨x.id, x.position + 1⟩ := by
          simp [hf1, moveShift, hid, hin]
        rw [hf1x, hin]
        simp only [inPosRange, Bool.and_eq_true, decide_eq_true_eq]
        constructor <;> omega
      · have hf1x : f1 x = x := by simp [hf1, moveShift, hid, hin]
        rw [hf1x]
  have hg1occ : List.Perm
      (rangeOccupancy (⟨g.id, g.roles.map f1⟩ : Guild) t r.position)
      (ascIntList t ((r.position + 1 - t).toNat)) := by
    show List.Perm (((g.roles.map f1).filter (inPosRange t r.position)).map Role.position)
      (ascIntList t ((r.position + 1 - t).toNat))
    rw [List.filter_map]
    have hcongr : List.filter (inPosRange t r.position ∘ f1) g.roles
        = List.filter (inPosRange t r.position) g.roles :=
      List.filter_congr (fun x hx => hrange_eq x hx)
    rw [hcongr, List.map_map]
    set m := (r.position - t).toNat with hm
    have hnn : (r.position + 1 - t).toNat = m + 1 := by omega
    have hoccE : List.Perm
        (((g.roles.filter (inPosRange t r.position)).erase r).map Role.position)
        ((ascIntList t ((r.position + 1 - t).toNat)).erase r.position) :=
      erase_occupancy_perm g r t r.position _ hmem ht2 le_rfl hocc
    have herase2 : (ascIntList t ((r.position + 1 - t).toNat)).erase r.position
        = ascIntList t m := by
      rw [hnn, show r.position = t + (m : Int) by omega]
      exact ascIntList_erase_last t m
    rw [herase2] at hoccE
    have hstep : List.Perm
        ((g.roles.filter (inPosRange t r.position)).map (Role.position ∘ f1))
        ((Role.position ∘ f1) r ::
          ((g.roles.filter (inPosRange t r.position)).erase r).map (Role.position ∘ f1)) :=
      (List.perm_cons_erase hrF).map _
    refine hstep.trans ?_
    have hhead : (Role.position ∘ f1) r = t := by rw [Function.comp_apply, hf1r]
    have htail : ((g.roles.filter (inPosRange t r.position)).erase r).map
        (Role.position ∘ f1)
        = (((g.roles.filter (inPosRange t r.position)).erase r).map
            Role.position).map (fun q => q + 1) := by
      rw [List.map_map]
      apply List.map_congr_left
      intro y hy
      have hyF : y ∈ g.roles.filter (inPosRange t r.position) := List.mem_of_mem_erase hy
      have hyner : y ≠ r := (hFnodup.mem_erase_iff.mp hy).1
      have hyid : y.id ≠ r.id := fun h => hyner (hxid_r y (List.mem_of_mem_filter hyF) h)
      have hyin : inPosRange t r.position y = true := (List.mem_filter.mp hyF).2
      show (f1 y).position = y.position + 1
      simp [hf1, moveShift, hyid, hyin]
    rw [hhead, htail]
    have htail2 : List.Perm
        ((((g.roles.filter (inPosRange t r.position)).erase r).map Role.position).map
          (fun q => q + 1))
        (ascIntList (t + 1) m) := by
      have h5 := hoccE.map (fun q => q + 1)
      rwa [ascIntList_map_add_one] at h5
    rw [hnn]
    exact htail2.cons t
  have hmem2 : (⟨r.id, t⟩ : Role) ∈ (⟨g.id, g.roles.map f1⟩ : Guild).roles := by
    have h := List.mem_map_of_mem f1 hmem
    rwa [hf1r] at h
  have hnodup2 : ((⟨g.id, g.roles.map f1⟩ : Guild).roles.map Role.id).Nodup := by
    show ((g.roles.map f1).map Role.id).Nodup
    have hEq : (g.roles.map f1).map Role.id = g.roles.map Role.id := by
      rw [List.map_map]
      exact List.map_congr_left (fun x _ => moveShift_id r.id t t r.position x)
    rw [hEq]
    exact hnodup
  obtain ⟨e2, heq2, hpos2, hfil2⟩ := moveRole_spec (⟨g.id, g.roles.map f1⟩ : Guild)
    ⟨r.id, t⟩ r.position hmem2 hP hdef hnodup2
    (by rw [min_eq_right ht2, max_eq_left ht2]; exact hg1occ)
  rw [min_eq_right ht2, max_eq_left ht2] at heq2
  set f2 := moveShift r.id r.position t r.position with hf2
  have hroles : (g.roles.map f1).map f2 = g.roles := by
    rw [List.map_map]
    have hid2 : ∀ x ∈ g.roles, (f2 ∘ f1) x = x := by
      intro x hx
      by_cases hid : x.id = r.id
      · have hxr : x = r := hxid_r x hx hid
        subst hxr
        show f2 (f1 x) = x
        rw [hf1r]
        simp [hf2, moveShift]
      · by_cases hin : inPosRange t r.position x = true
        · have hxF : x ∈ g.roles.filter (inPosRange t r.position) :=
            List.mem_filter.mpr ⟨hx, hin⟩
          have hxner : x ≠ r := fun h => hid (h ▸ rfl)
          have hpp := hposne x hxF hxner
          have hbounds : t ≤ x.position ∧ x.position ≤ r.position := by
            simpa only [inPosRange, Bool.and_eq_true, decide_eq_true_eq] using hin
          by_cases htc : t = r.position
          · exact absurd rfl (by omega : x.position ≠ x.position)
          · have hstep1 : f1 x = ⟨x.id, x.position + 1⟩ := by
              simp [hf1, moveShift, hid, hin]
            have hin2 : inPosRange t r.position (⟨x.id, x.position + 1⟩ : Role) = true := by
              simp only [inPosRange, Bool.and_eq_true, decide_eq_true_eq]
              omega
            have hne2 : ¬(r.position = t) := fun h => htc h.symm
            show f2 (f1 x) = x
            rw [hstep1]
            simp [hf2, moveShift, hid, hin2, hne2]
        · have hstep1 : f1 x = x := by simp [hf1, moveShift, hid, hin]
          show f2 (f1 x) = x
          rw [hstep1]
          simp [hf2, moveShift, hid, hin]
    exact (List.map_congr_left hid2).trans (List.map_id' g.roles)
  refine ⟨e1, ⟨g.id, g.roles.map f1⟩, e2, _, heq1, heq2, ?_⟩
  show (⟨g.id, (g.roles.map f1).map f2⟩ : Guild) = g
  rw [hroles]

/-- Round trip, branch toward the high end (`r.position < t`): moving `r` to
`t` and then back to its original position restores the guild. -/
theorem roundTrip_high (g : Guild) (r : Role) (t : Int)
    (hmem : r ∈ g.roles) (ht : 0 < t) (hP : 0 < r.position) (hgt : r.position < t)
    (hdef : r.id ≠ g.id) (hnodup : (g.roles.map Role.id).Nodup)
    (hocc : List.Perm (rangeOccupancy g r.position t)
      (ascIntList r.position ((t + 1 - r.position).toNat))) :
    ∃ e1 g1 e2 g2,
      g.moveRole r t = .ok (e1, g1)
      ∧ g1.moveRole ⟨r.id, t⟩ r.position = .ok (e2, g2)
      ∧ g2 = g := by
  obtain ⟨e1, heq1, hpos1, hfil1⟩ := moveRole_spec g r t hmem ht hdef hnodup
    (by rw [min_eq_right (le_of_lt hgt), max_eq_left (le_of_lt hgt)]; exact hocc)
  rw [min_eq_right (le_of_lt hgt), max_eq_left (le_of_lt hgt)] at heq1
  set f1 := moveShift r.id t r.position t with hf1
  have hne1 : ¬(t = r.position) := by omega
  have hrF : r ∈ g.roles.filter (inPosRange r.position t) :=
    List.mem_filter.mpr ⟨hmem, by simp [inPosRange]; omega⟩
  have hFpos_nodup : ((g.roles.filter (inPosRange r.position t)).map Role.position).Nodup :=
    hocc.nodup_iff.mpr (ascIntList_nodup _ _)
  have hxid_r : ∀ x ∈ g.roles, x.id = r.id → x = r :=
    fun x hx h => List.inj_on_of_nodup_map hnodup hx hmem h
  have hroles_nodup : g.roles.Nodup := List.Nodup.of_map Role.id hnodup
  have hFnodup : (g.roles.filter (inPosRange r.position t)).Nodup :=
    List.Nodup.sublist (List.filter_sublist _) hroles_nodup
  have hposne : ∀ x ∈ g.roles.filter (inPosRange r.position t), x ≠ r →
      x.position ≠ r.position :=
    fun x hxF hxr hpp => hxr (List.inj_on_of_nodup_map hFpos_nodup hxF hrF hpp)
  have hf1r : f1 r = ⟨r.id, t⟩ := by simp [hf1, moveShift]
  have hrange_eq : ∀ x ∈ g.roles,
      inPosRange r.position t (f1 x) = inPosRange r.position t x := by
    intro x hx
    by_cases hid : x.id = r.id
    · have hxr : x = r := hxid_r x hx hid
      subst hxr
      rw [hf1r]
      have hL : inPosRange x.position t (⟨x.id, t⟩ : Role) = true := by
        simp only [inPosRange, Bool.and_eq_true, decide_eq_true_eq]
        omega
      have hR : inPosRange x.position t x = true := by
        simp only [inPosRange, Bool.and_eq_true, decide_eq_true_eq]
        omega
      rw [hL, hR]
    · by_cases hin : inPosRange r.position t x = true
      · have hxF : x ∈ g.roles.filter (inPosRange r.position t) :=
          List.mem_filter.mpr ⟨hx, hin⟩
        have hxner : x ≠ r := fun h => hid (h ▸ rfl)
        have hpp := hposne x hxF hxner
        have hbounds : r.position ≤ x.position ∧ x.position ≤ t := by
          simpa only [inPosRange, Bool.and_eq_true, decide_eq_true_eq] using hin
        have hf1x : f1 x = ⟨x.id, x.position - 1⟩ := by
          simp [hf1, moveShift, hid, hin, hne1]
        rw [hf1x, hin]
        simp only [inPosRange, Bool.and_eq_true, decide_eq_true_eq]
        constructor <;> omega
      · have hf1x : f1 x = x := by simp [hf1, moveShift, hid, hin]
        rw [hf1x]
  have hg1occ : List.Perm
      (rangeOccupancy (⟨g.id, g.roles.map f1⟩ : Guild) r.position t)
      (ascIntList r.position ((t + 1 - r.position).toNat)) := by
    show List.Perm
      (((g.roles.map f1).filter (inPosRange r.position t)).map Role.position)
      (ascIntList r.position ((t + 1 - r.position).toNat))
    rw [List.filter_map]
    have hcongr : List.filter (inPosRange r.position t ∘ f1) g.roles
        = List.filter (inPosRange r.position t) g.roles :=
      List.filter_congr (fun x hx => hrange_eq x hx)
    rw [hcongr, List.map_map]
    set m := (t - r.position).toNat with hm
    have hnn : (t + 1 - r.position).toNat = m + 1 := by omega
    have hoccE : List.Perm
        (((g.roles.filter (inPosRange r.position t)).erase r).map Role.position)
        ((ascIntList r.position ((t + 1 - r.position).toNat)).erase r.position) :=
      erase_occupancy_perm g r r.position t _ hmem le_rfl (le_of_lt hgt) hocc
    have herase2 : (ascIntList r.position ((t + 1 - r.position).toNat)).erase r.position
        = ascIntList (r.position + 1) m := by
      rw [hnn]
      exact ascIntList_erase_head r.position m
    rw [herase2] at hoccE
    have hstep : List.Perm
        ((g.roles.filter (inPosRange r.position t)).map (Role.position ∘ f1))
        ((Role.position ∘ f1) r ::
          ((g.roles.filter (inPosRange r.position t)).erase r).map (Role.position ∘ f1)) :=
      (List.perm_cons_erase hrF).map _
    refine hstep.trans ?_
    have hhead : (Role.position ∘ f1) r = t := by rw [Function.comp_apply, hf1r]
    have htail : ((g.roles.filter (inPosRange r.position t)).erase r).map
        (Role.position ∘ f1)
        = (((g.roles.filter (inPosRange r.position t)).erase r).map
            Role.position).map (fun q => q - 1) := by
      rw [List.map_map]
      apply List.map_congr_left
      intro y hy
      have hyF : y ∈ g.roles.filter (inPosRange r.position t) := List.mem_of_mem_erase hy
      have hyner : y ≠ r := (hFnodup.mem_erase_iff.mp hy).1
      have hyid : y.id ≠ r.id := fun h => hyner (hxid_r y (List.mem_of_mem_filter hyF) h)
      have hyin : inPosRange r.position t y = true := (List.mem_filter.mp hyF).2
      show (f1 y).position = y.position - 1
      simp [hf1, moveShift, hyid, hyin, hne1]
    rw [hhead, htail]
    have htail2 : List.Perm
        ((((g.roles.filter (inPosRange r.position t)).erase r).map Role.position).map
          (fun q => q - 1))
        (ascIntList r.position m) := by
      have h5 := hoccE.map (fun q => q - 1)
      rw [ascIntList_map_sub_one] at h5
      rwa [show r.position + 1 - 1 = r.position by ring] at h5
    rw [hnn, ascIntList_snoc, show r.position + (m : Int) = t by omega]
    exact (htail2.cons t).trans (List.perm_append_singleton t _).symm
  have hmem2 : (⟨r.id, t⟩ : Role) ∈ (⟨g.id, g.roles.map f1⟩ : Guild).roles := by
    have h := List.mem_map_of_mem f1 hmem
    rwa [hf1r] at h
  have hnodup2 : ((⟨g.id, g.roles.map f1⟩ : Guild).roles.map Role.id).Nodup := by
    show ((g.roles.map f1).map Role.id).Nodup
    have hEq : (g.roles.map f1).map Role.id = g.roles.map Role.id := by
      rw [List.map_map]
      exact List.map_congr_left (fun x _ => moveShift_id r.id t r.position t x)
    rw [hEq]
    exact hnodup
  obtain ⟨e2, heq2, hpos2, hfil2⟩ := moveRole_spec (⟨g.id, g.roles.map f1⟩ : Guild)
    ⟨r.id, t⟩ r.position hmem2 hP hdef hnodup2
    (by rw [min_eq_left (le_of_lt hgt), max_eq_right (le_of_lt hgt)]; exact hg1occ)
  rw [min_eq_left (le_of_lt hgt), max_eq_right (le_of_lt hgt)] at heq2
  set f2 := moveShift r.id r.position r.position t with hf2
  have hroles : (g.roles.map f1).map f2 = g.roles := by
    rw [List.map_map]
    have hid2 : ∀ x ∈ g.roles, (f2 ∘ f1) x = x := by
      intro x hx
      by_cases hid : x.id = r.id
      · have hxr : x = r := hxid_r x hx hid
        subst hxr
        show f2 (f1 x) = x
        rw [hf1r]
        simp [hf2, moveShift]
      · by_cases hin : inPosRange r.position t x = true
        · have hxF : x ∈ g.roles.filter (inPosRange r.position t) :=
            List.mem_filter.mpr ⟨hx, hin⟩
          have hxner : x ≠ r := fun h => hid (h ▸ rfl)
          have hpp := hposne x hxF hxner
          have hbounds : r.position ≤ x.position ∧ x.position ≤ t := by
            simpa only [inPosRange, Bool.and_eq_true, decide_eq_true_eq] using hin
          have hstep1 : f1 x = ⟨x.id, x.position - 1⟩ := by
            simp [hf1, moveShift, hid, hin, hne1]
          have hin2 : inPosRange r.position t (⟨x.id, x.position - 1⟩ : Role) = true := by
            simp only [inPosRange, Bool.and_eq_true, decide_eq_true_eq]
            omega
          show f2 (f1 x) = x
          rw [hstep1]
          simp [hf2, moveShift, hid, hin2]
        · have hstep1 : f1 x = x := by simp [hf1, moveShift, hid, hin]
          show f2 (f1 x) = x
          rw [hstep1]
          simp [hf2, moveShift, hid, hin]
    exact (List.map_congr_left hid2).trans (List.map_id' g.roles)
  refine ⟨e1, ⟨g.id, g.roles.map f1⟩, e2, _, heq1, heq2, ?_⟩
  show (⟨g.id, (g.roles.map f1).map f2⟩ : Guild) = g
  rw [hroles]

/-- C10: with roles `r` at 1, `a` at 1 (duplicate position) and `b` at 2,
moving `r` to 2 and then back to 1 does not restore the original positions:
`a` ends at 2 and `b` at 3 although both sat in the affected range. -/
theorem c10_counterexample :
    (⟨"G", [⟨"r", 1⟩, ⟨"a", 1⟩, ⟨"b", 2⟩]⟩ : Guild).moveRole ⟨"r", 1⟩ 2
      = .ok ([⟨"a", 1⟩, ⟨"b", 2⟩, ⟨"r", 3⟩], ⟨"G", [⟨"r", 3⟩, ⟨"a", 1⟩, ⟨"b", 2⟩]⟩)
    ∧ (⟨"G", [⟨"r", 3⟩, ⟨"a", 1⟩, ⟨"b", 2⟩]⟩ : Guild).moveRole ⟨"r", 3⟩ 1
      = .ok ([⟨"r", 1⟩, ⟨"a", 2⟩, ⟨"b", 3⟩], ⟨"G", [⟨"r", 1⟩, ⟨"a", 2⟩, ⟨"b", 3⟩]⟩)
    ∧ ([⟨"r", 1⟩, ⟨"a", 2⟩, ⟨"b", 3⟩] : List Role) ≠ [⟨"r", 1⟩, ⟨"a", 1⟩, ⟨"b", 2⟩] := by
  exact ⟨rfl, rfl, by decide⟩

/-- C10 (amended): when role ids are unique and every position of the affected
range is occupied by exactly one role, moving a non-default role from its
position `P > 0` to a target `T > 0` and then back from `T` to `P` restores
the guild exactly — every role, in particular every role of the affected
range, regains its original position. -/
theorem c10_round_trip_amended (g : Guild) (r : Role) (t : Int)
    (hmem : r ∈ g.roles) (ht : 0 < t) (hP : 0 < r.position) (hdef : r.id ≠ g.id)
    (hnodup : (g.roles.map Role.id).Nodup)
    (hocc : List.Perm (rangeOccupancy g (min t r.position) (max t r.position))
      (ascIntList (min t r.position) ((max t r.position + 1 - min t r.position).toNat))) :
    ∃ e1 g1 e2 g2,
      g.moveRole r t = .ok (e1, g1)
      ∧ g1.moveRole ⟨r.id, t⟩ r.position = .ok (e2, g2)
      ∧ g2 = g := by
  by_cases ht2 : t ≤ r.position
  · refine roundTrip_low g r t hmem ht hP ht2 hdef hnodup ?_
    rw [min_eq_left ht2, max_eq_right ht2] at hocc
    exact hocc
  · refine roundTrip_high g r t hmem ht hP (by omega) hdef hnodup ?_
    rw [min_eq_right (by omega : r.position ≤ t),
      max_eq_left (by omega : r.position ≤ t)] at hocc
    exact hocc

/-- Witness for the amended C10 theorem: positions `0,1,2,3`, moving the role
at 1 to 3 and back. -/
theorem c10_witness :
    (⟨"x", 1⟩ : Role) ∈ (⟨"G", [⟨"G", 0⟩, ⟨"x", 1⟩, ⟨"y", 2⟩, ⟨"z", 3⟩]⟩ : Guild).roles
    ∧ (∃ e1 g1 e2 g2,
        (⟨"G", [⟨"G", 0⟩, ⟨"x", 1⟩, ⟨"y", 2⟩, ⟨"z", 3⟩]⟩ : Guild).moveRole ⟨"x", 1⟩ 3
          = .ok (e1, g1)
        ∧ g1.moveRole ⟨"x", 3⟩ 1 = .ok (e2, g2)
        ∧ g2 = ⟨"G", [⟨"G", 0⟩, ⟨"x", 1⟩, ⟨"y", 2⟩, ⟨"z", 3⟩]⟩) :=
  ⟨by decide, c10_round_trip_amended _ ⟨"x", 1⟩ 3 (by decide) (by decide) (by decide)
    (by decide) (by decide) (by decide)⟩

/-! ## The event dispatcher (src/unnamed/part_000) -/

/-- `interfaceEventType`, the wildcard tag for `interface{}` handlers. -/
def interfaceEventType : String := "__INTERFACE__"

/-- Observable dispatcher steps: the internal state-update hook
(`s.onInterface` guarded by `s.State != nil`), a handler invocation found
under a table tag, the decode-failure log line of `natsHandler`, and a
`QueueSubscribe` attempt of `AddHandler`. -/
inductive TraceEntry where
  | stateHook
  | invoke (tag : String) (h : Nat)
  | logDecodeError
  | subscribeAttempt (subject : String)
deriving DecidableEq, Repr

/-- The dispatcher-relevant fields of `Session`: the persistent and once
handler tables (`map[string][]*eventHandlerInstance`, instances numbered —
each Go registration allocates a fresh pointer), `hasState` for
`s.State != nil`, `syncEvents` for `s.SyncEvents` (it only chooses direct
call versus goroutine spawn in `handle`; the trace records the
invocation/spawn order, which is the same in both modes), and `natsEnabled`
for `s.NATS != nil && s.NatsMode == 1`. -/
structure Session where
  handlers : String → List Nat
  onceHandlers : String → List Nat
  hasState : Bool
  syncEvents : Bool
  natsEnabled : Bool

/-- `Session.addEventHandler`: append a fresh instance to the persistent
table of its tag. -/
def Session.addEventHandler (s : Session) (t : String) (ehi : Nat) : Session :=
  { s with handlers := fun u => if u = t then s.handlers u ++ [ehi] else s.handlers u }

/-- `Session.addEventHandlerOnce`: append a fresh instance to the once table
of its tag. -/
def Session.addEventHandlerOnce (s : Session) (t : String) (ehi : Nat) : Session :=
  { s with onceHandlers := fun u =>
      if u = t then s.onceHandlers u ++ [ehi] else s.onceHandlers u }

/-- `Session.removeEventHandlerInstance`.  An instance pointer occurs in
exactly one table and at most once (each registration allocates a fresh
pointer), so the splice loops match at most at the first occurrence.  The
once loop of the source splices `handlers[i+1:]` — the tail of the
PERSISTENT list — into the once table, and the slice expression is out of
bounds (a run-time panic, modelled by `none`) whenever `i + 1` exceeds
`len(handlers)`. -/
def Session.removeEventHandlerInstance (s : Session) (t : String) (ehi : Nat) :
    Option Session :=
  let handlers := s.handlers t
  let once := s.onceHandlers t
  let s1 : Session :=
    match handlers.findIdx? (fun h => h == ehi) with
    | some i => { s with handlers := fun u =>
        if u = t then handlers.take i ++ handlers.drop (i + 1) else s.handlers u }
    | none => s
  match once.findIdx? (fun h => h == ehi) with
  | some i =>
      if i + 1 ≤ handlers.length then
        some { s1 with onceHandlers := fun u =>
          if u = t then once.take i ++ handlers.drop (i + 1) else s1.onceHandlers u }
      else none
  | none => some s1

/-- `Session.handle`: invoke the persistent handlers of the tag, then the
once handlers, then clear the once table for the tag when it was
non-empty. -/
def Session.handle (s : Session) (t : String) : List TraceEntry × Session :=
  let persist := (s.handlers t).map (fun h => TraceEntry.invoke t h)
  if (s.onceHandlers t).length > 0 then
    (persist ++ (s.onceHandlers t).map (fun h => TraceEntry.invoke t h),
      { s with onceHandlers := fun u => if u = t then [] else s.onceHandlers u })
  else (persist, s)

/-- `Session.handleEvent`: the internal state hook first (only when the
session has a state store), then the wildcard handlers, then the
tag-specific handlers. -/
def Session.handleEvent (s : Session) (t : String) : List TraceEntry × Session :=
  let pre := if s.hasState then [TraceEntry.stateHook] else []
  let w := s.handle interfaceEventType
  let tg := w.2.handle t
  (pre ++ w.1 ++ tg.1, tg.2)

/-- Sequential dispatch of a list of inbound event tags. -/
def dispatchSeq (s : Session) : List String → List TraceEntry × Session
  | [] => ([], s)
  | t :: ts =>
    let d := s.handleEvent t
    let rest := dispatchSeq d.2 ts
    (d.1 ++ rest.1, rest.2)

/-- An inbound NATS message: its subject and whether `json.Unmarshal` of its
payload into the freshly constructed event value succeeds. -/
structure NatsMsg where
  subject : String
  decodeOk : Bool

/-- `Session.natsHandler`: when a factory for the subject is registered in
`registeredInterfaceProviders` (the catalog, modelled by its key set),
construct a fresh value, attempt to decode — logging on failure — and then
dispatch regardless: the source has no early return after the log line. -/
def natsHandler (catalog : List String) (s : Session) (m : NatsMsg) :
    List TraceEntry × Session :=
  if m.subject ∈ catalog then
    let logTr : List TraceEntry :=
      if m.decodeOk then [] else [TraceEntry.logDecodeError]
    let d := s.handleEvent m.subject
    (logTr ++ d.1, d.2)
  else ([], s)

/-- The process-wide `natsSubscriptions` map, modelled by its key set. -/
structure BridgeState where
  subs : List String
deriving DecidableEq, Repr

/-- The NATS prologue of `Session.AddHandler`; `subOk` models whether
`QueueSubscribe` returns without error.  The source records the subscription
in `natsSubscriptions` only inside the `err != nil` branch: a failure is
recorded (and never retried), a success is not (and is repeated by the next
registration of the tag). -/
def addHandlerSubscribe (s : Session) (bs : BridgeState) (tag : String)
    (subOk : Bool) : BridgeState × List TraceEntry :=
  if s.natsEnabled then
    let subject := if tag = interfaceEventType then "*" else tag
    if subject ∈ bs.subs then (bs, [])
    else if subOk then (bs, [TraceEntry.subscribeAttempt subject])
    else ({ subs := subject :: bs.subs }, [TraceEntry.subscribeAttempt subject])
  else (bs, [])

/-- `Session.AddHandler` for a handler whose shape resolves to `tag`: the
subscription prologue, then registration in the persistent table (which
happens regardless of the subscription outcome). -/
def Session.AddHandler (s : Session) (bs : BridgeState) (tag : String) (ehi : Nat)
    (subOk : Bool) : Session × BridgeState × List TraceEntry :=
  let sub := addHandlerSubscribe s bs tag subOk
  (s.addEventHandler tag ehi, sub.1, sub.2)

/-- `Session.AddHandlerOnce` for a handler whose shape resolves to `tag`: the
source registers in the once table and contains no NATS-subscription code on
this path. -/
def Session.AddHandlerOnce (s : Session) (tag : String) (ehi : Nat) : Session :=
  s.addEventHandlerOnce tag ehi

/-- Whether a trace entry is an invocation of handler `h`. -/
def TraceEntry.isInvokeOf (h : Nat) : TraceEntry → Bool
  | .invoke _ h2 => h2 == h
  | _ => false

/-- Number of invocations of handler `h` in a trace. -/
def countInvoke (tr : List TraceEntry) (h : Nat) : Nat :=
  (tr.filter (fun e => e.isInvokeOf h)).length

/-- Handler `h` appears in no table of `s`. -/
def HandlerAbsent (s : Session) (h : Nat) : Prop :=
  (∀ u, h ∉ s.handlers u) ∧ (∀ u, h ∉ s.onceHandlers u)

theorem handle_fst (s : Session) (t : String) :
    (s.handle t).1 = (s.handlers t).map (fun h => TraceEntry.invoke t h)
      ++ (s.onceHandlers t).map (fun h => TraceEntry.invoke t h) := by
  unfold Session.handle
  by_cases hc : (s.onceHandlers t).length > 0
  · rw [if_pos hc]
  · rw [if_neg hc]
    have hnil : s.onceHandlers t = [] := List.length_eq_zero.mp (by omega)
    rw [hnil]
    simp

theorem handle_snd (s : Session) (t : String) :
    (s.handle t).2 = if (s.onceHandlers t).length > 0
      then { s with onceHandlers := fun u => if u = t then [] else s.onceHandlers u }
      else s := by
  unfold Session.handle
  by_cases hc : (s.onceHandlers t).length > 0
  · rw [if_pos hc, if_pos hc]
  · rw [if_neg hc, if_neg hc]

theorem handle_snd_handlers (s : Session) (t : String) :
    ((s.handle t).2).handlers = s.handlers := by
  rw [handle_snd]
  by_cases hc : (s.onceHandlers t).length > 0
  · rw [if_pos hc]
  · rw [if_neg hc]

theorem handle_snd_once_of_ne (s : Session) (t u : String) (hne : u ≠ t) :
    ((s.handle t).2).onceHandlers u = s.onceHandlers u := by
  rw [handle_snd]
  by_cases hc : (s.onceHandlers t).length > 0
  · rw [if_pos hc]
    show (if u = t then [] else s.onceHandlers u) = s.onceHandlers u
    rw [if_neg hne]
  · rw [if_neg hc]

theorem handle_snd_once_self (s : Session) (t : String) :
    ((s.handle t).2).onceHandlers t = [] := by
  rw [handle_snd]
  by_cases hc : (s.onceHandlers t).length > 0
  · rw [if_pos hc]
    show (if t = t then [] else s.onceHandlers t) = []
    rw [if_pos rfl]
  · rw [if_neg hc]
    exact List.length_eq_zero.mp (by omega)

theorem handleEvent_fst (s : Session) (t : String) :
    (s.handleEvent t).1 = (if s.hasState then [TraceEntry.stateHook] else [])
      ++ (s.handle interfaceEventType).1
      ++ ((s.handle interfaceEventType).2.handle t).1 := rfl

theorem handleEvent_snd (s : Session) (t : String) :
    (s.handleEvent t).2 = ((s.handle interfaceEventType).2.handle t).2 := rfl

theorem countInvoke_append (tr1 tr2 : List TraceEntry) (h : Nat) :
    countInvoke (tr1 ++ tr2) h = countInvoke tr1 h + countInvoke tr2 h := by
  simp [countInvoke, List.filter_append]

theorem countInvoke_map_invoke (t : String) (l : List Nat) (h : Nat) :
    countInvoke (l.map (fun x => TraceEntry.invoke t x)) h = l.count h := by
  unfold countInvoke
  rw [List.filter_map, List.length_map]
  show (List.filter (fun x => x == h) l).length = List.count h l
  rw [← List.countP_eq_length_filter]
  rfl

theorem countInvoke_state (b : Bool) (h : Nat) :
    countInvoke (if b then [TraceEntry.stateHook] else []) h = 0 := by
  cases b <;> rfl

/-- The invocation count of one `handle` pass is the handler's multiplicity
in the two tables of the tag. -/
theorem handle_count (s : Session) (t : String) (h : Nat) :
    countInvoke (s.handle t).1 h = (s.handlers t).count h + (s.onceHandlers t).count h := by
  rw [handle_fst, countInvoke_append, countInvoke_map_invoke, countInvoke_map_invoke]

theorem handle_absent (s : Session) (t : String) (h : Nat) (habs : HandlerAbsent s h) :
    countInvoke (s.handle t).1 h = 0 ∧ HandlerAbsent (s.handle t).2 h := by
  constructor
  · rw [handle_count, List.count_eq_zero.mpr (habs.1 t), List.count_eq_zero.mpr (habs.2 t)]
  · constructor
    · intro u
      rw [congrFun (handle_snd_handlers s t) u]
      exact habs.1 u
    · intro u
      by_cases hu : u = t
      · subst hu
        rw [handle_snd_once_self]
        exact List.not_mem_nil h
      · rw [handle_snd_once_of_ne s t u hu]
        exact habs.2 u

theorem handleEvent_absent (s : Session) (t : String) (h : Nat)
    (habs : HandlerAbsent s h) :
    countInvoke (s.handleEvent t).1 h = 0 ∧ HandlerAbsent (s.handleEvent t).2 h := by
  have h1 := handle_absent s interfaceEventType h habs
  have h2 := handle_absent (s.handle interfaceEventType).2 t h h1.2
  constructor
  · rw [handleEvent_fst, countInvoke_append, countInvoke_append, countInvoke_state,
      h1.1, h2.1]
  · rw [handleEvent_snd]
    exact h2.2

theorem dispatchSeq_absent (h : Nat) :
    ∀ (ts : List String) (s : Session), HandlerAbsent s h →
      countInvoke (dispatchSeq s ts).1 h = 0 := by
  intro ts
  induction ts with
  | nil => intro s _; rfl
  | cons t ts ih =>
    intro s habs
    have h1 := handleEvent_absent s t h habs
    show countInvoke ((s.handleEvent t).1 ++ (dispatchSeq (s.handleEvent t).2 ts).1) h = 0
    rw [countInvoke_append, h1.1, ih _ h1.2]

/-- Every entry of a `handle` trace is an invocation under the handled tag. -/
theorem handle_trace_invoke (s : Session) (t : String) :
    ∀ e ∈ (s.handle t).1, ∃ h, e = TraceEntry.invoke t h := by
  intro e he
  rw [handle_fst] at he
  rcases List.mem_append.mp he with h1 | h1 <;>
    · obtain ⟨h, _, rfl⟩ := List.mem_map.mp h1
      exact ⟨h, rfl⟩

/-- C5 (amended): whenever the session has a state store (the source guards
the hook with `s.State != nil` and skips it otherwise), dispatching an event
in synchronous mode runs the internal state-update hook strictly first, then
the wildcard handlers, then the tag-specific handlers. -/
theorem c5_dispatch_order_amended (s : Session) (t : String)
    (hst : s.hasState = true) (_hsync : s.syncEvents = true) :
    ∃ w tg, (s.handleEvent t).1 = TraceEntry.stateHook :: (w ++ tg)
      ∧ (∀ e ∈ w, ∃ h, e = TraceEntry.invoke interfaceEventType h)
      ∧ (∀ e ∈ tg, ∃ h, e = TraceEntry.invoke t h) := by
  refine ⟨(s.handle interfaceEventType).1, ((s.handle interfaceEventType).2.handle t).1,
    ?_, handle_trace_invoke s interfaceEventType,
    handle_trace_invoke (s.handle interfaceEventType).2 t⟩
  rw [handleEvent_fst, hst]
  simp

/-- C5: the claim says the state hook is always invoked; but `handleEvent`
skips `onInterface` when `s.State` is nil, and a tag handler still observes
the event without the hook ever running. -/
theorem c5_counterexample :
    ((⟨fun u => if u = "MSG" then [1] else [], fun _ => [], false, true, false⟩
      : Session).handleEvent "MSG").1 = [TraceEntry.invoke "MSG" 1]
    ∧ TraceEntry.stateHook ∉ [TraceEntry.invoke "MSG" 1] := by
  exact ⟨rfl, by decide⟩

/-- Witness for the amended C5 theorem at a one-handler session with a state
store. -/
theorem c5_witness :
    ((⟨fun u => if u = "MSG" then [1] else [], fun _ => [], true, true, false⟩
      : Session).hasState = true)
    ∧ ((⟨fun u => if u = "MSG" then [1] else [], fun _ => [], true, true, false⟩
      : Session).syncEvents = true)
    ∧ (∃ w tg,
        ((⟨fun u => if u = "MSG" then [1] else [], fun _ => [], true, true, false⟩
          : Session).handleEvent "MSG").1 = TraceEntry.stateHook :: (w ++ tg)
        ∧ (∀ e ∈ w, ∃ h, e = TraceEntry.invoke interfaceEventType h)
        ∧ (∀ e ∈ tg, ∃ h, e = TraceEntry.invoke "MSG" h)) :=
  ⟨rfl, rfl, c5_dispatch_order_amended _ "MSG" rfl rfl⟩

/-- C6: a once-handler registered under `T` alone fires exactly once during
the first dispatch under `T`, the once table for `T` is empty afterwards, and
it never fires again across any later sequence of dispatches. -/
theorem c6_once_fires_exactly_once (s : Session) (T : String) (h : Nat)
    (honce : (s.onceHandlers T).count h = 1)
    (hpers : ∀ u, h ∉ s.handlers u)
    (hother : ∀ u, u ≠ T → h ∉ s.onceHandlers u) :
    countInvoke (s.handleEvent T).1 h = 1
    ∧ (s.handleEvent T).2.onceHandlers T = []
    ∧ ∀ ts : List String, countInvoke (dispatchSeq (s.handleEvent T).2 ts).1 h = 0 := by
  have hwc := handle_count s interfaceEventType h
  have hcount1 : countInvoke (s.handleEvent T).1 h = 1 := by
    rw [handleEvent_fst, countInvoke_append, countInvoke_append, countInvoke_state,
      handle_count, handle_count,
      congrFun (handle_snd_handlers s interfaceEventType) T,
      List.count_eq_zero.mpr (hpers interfaceEventType),
      List.count_eq_zero.mpr (hpers T)]
    by_cases hTw : T = interfaceEventType
    · subst hTw
      rw [handle_snd_once_self, honce]
      rfl
    · rw [handle_snd_once_of_ne s interfaceEventType T hTw, honce,
        List.count_eq_zero.mpr (hother interfaceEventType (fun hh => hTw hh.symm))]
  have hempty : (s.handleEvent T).2.onceHandlers T = [] := by
    rw [handleEvent_snd]
    exact handle_snd_once_self _ T
  refine ⟨hcount1, hempty, ?_⟩
  intro ts
  apply dispatchSeq_absent
  constructor
  · intro u
    rw [handleEvent_snd, congrFun (handle_snd_handlers _ T) u,
      congrFun (handle_snd_handlers s interfaceEventType) u]
    exact hpers u
  · intro u
    by_cases hu : u = T
    · subst hu
      rw [hempty]
      exact List.not_mem_nil h
    · rw [handleEvent_snd, handle_snd_once_of_ne _ T u hu]
      by_cases huw : u = interfaceEventType
      · subst huw
        rw [handle_snd_once_self]
        exact List.not_mem_nil h
      · rw [handle_snd_once_of_ne s interfaceEventType u huw]
        exact hother u hu

/-- Witness for C6: one once-handler under tag `"T"`, dispatching `"T"` and
then the sequence `["T", "U"]`. -/
theorem c6_witness :
    (((⟨fun _ => [], fun u => if u = "T" then [5] else [], true, true, false⟩
      : Session).onceHandlers "T").count 5 = 1)
    ∧ countInvoke ((⟨fun _ => [], fun u => if u = "T" then [5] else [], true, true, false⟩
        : Session).handleEvent "T").1 5 = 1
    ∧ ((⟨fun _ => [], fun u => if u = "T" then [5] else [], true, true, false⟩
        : Session).handleEvent "T").2.onceHandlers "T" = []
    ∧ countInvoke (dispatchSeq ((⟨fun _ => [], fun u => if u = "T" then [5] else [],
        true, true, false⟩ : Session).handleEvent "T").2 ["T", "U"]).1 5 = 0 := by
  have h := c6_once_fires_exactly_once
    (⟨fun _ => [], fun u => if u = "T" then [5] else [], true, true, false⟩ : Session)
    "T" 5 (by decide)
    (fun u => List.not_mem_nil 5)
    (fun u hu => by
      show (5 : Nat) ∉ (if u = "T" then [5] else [])
      rw [if_neg hu]
      exact List.not_mem_nil 5)
  exact ⟨by decide, h.1, h.2.1, h.2.2 ["T", "U"]⟩

/-- C7: the claim says a bridge message that fails to decode is dropped with
no hook and no handler running; but `natsHandler` only logs the unmarshal
error and falls through to `handleEvent`, so the state hook and the tag
handler both run on the freshly constructed (undecoded) value. -/
theorem c7_counterexample :
    (natsHandler ["EV"]
      (⟨fun u => if u = "EV" then [3] else [], fun _ => [], true, true, true⟩ : Session)
      ⟨"EV", false⟩).1
      = [TraceEntry.logDecodeError, TraceEntry.stateHook, TraceEntry.invoke "EV" 3]
    ∧ TraceEntry.invoke "EV" 3
        ∈ [TraceEntry.logDecodeError, TraceEntry.stateHook, TraceEntry.invoke "EV" 3]
    ∧ TraceEntry.stateHook
        ∈ [TraceEntry.logDecodeError, TraceEntry.stateHook, TraceEntry.invoke "EV" 3] := by
  exact ⟨rfl, by decide, by decide⟩

/-- C7 (amended): for a registered subject whose payload fails to decode,
`natsHandler` logs the decode error, does not retry, and still dispatches the
freshly constructed value through the normal pipeline (state hook, wildcard
handlers, tag handlers), reaching exactly the state any successful dispatch
of that tag would reach. -/
theorem c7_decode_failure_logged_and_dispatched (catalog : List String) (s : Session)
    (m : NatsMsg) (hreg : m.subject ∈ catalog) (hfail : m.decodeOk = false) :
    (natsHandler catalog s m).1
      = TraceEntry.logDecodeError :: (s.handleEvent m.subject).1
    ∧ (natsHandler catalog s m).2 = (s.handleEvent m.subject).2 := by
  unfold natsHandler
  rw [if_pos hreg, hfail]
  exact ⟨rfl, rfl⟩

/-- Witness for the amended C7 theorem at a registered subject and a failing
payload. -/
theorem c7_witness :
    ("EV" ∈ ["EV"]) ∧ ((⟨"EV", false⟩ : NatsMsg).decodeOk = false)
    ∧ ((natsHandler ["EV"]
        (⟨fun u => if u = "EV" then [3] else [], fun _ => [], true, true, true⟩ : Session)
        ⟨"EV", false⟩).1
      = TraceEntry.logDecodeError ::
        ((⟨fun u => if u = "EV" then [3] else [], fun _ => [], true, true, true⟩
          : Session).handleEvent "EV").1
      ∧ (natsHandler ["EV"]
          (⟨fun u => if u = "EV" then [3] else [], fun _ => [], true, true, true⟩ : Session)
          ⟨"EV", false⟩).2
        = ((⟨fun u => if u = "EV" then [3] else [], fun _ => [], true, true, true⟩
            : Session).handleEvent "EV").2) :=
  ⟨by decide, rfl, c7_decode_failure_logged_and_dispatched ["EV"] _ ⟨"EV", false⟩
    (by decide) rfl⟩

/-- C1: invoking the removal token of once-handler 20 under tag `"T"` (with
persistent table `[10]` and once table `[20, 21]`) splices the PERSISTENT
list's tail into the once table: the once table becomes `[]`, losing handler
21 instead of leaving `[21]`; and with an empty persistent table the same
removal is a slice-bounds panic (`none`).  Removal through a persistent
token (handler 10) behaves as specified. -/
theorem c1_once_removal_bug :
    (((⟨fun u => if u = "T" then [10] else [], fun u => if u = "T" then [20, 21] else [],
        true, true, false⟩ : Session).removeEventHandlerInstance "T" 20).map
      (fun s => s.onceHandlers "T") = some [])
    ∧ (((⟨fun u => if u = "T" then [10] else [], fun u => if u = "T" then [20, 21] else [],
        true, true, false⟩ : Session).removeEventHandlerInstance "T" 20).map
      (fun s => s.handlers "T") = some [10])
    ∧ ([] : List Nat) ≠ [21]
    ∧ ((⟨fun _ => [], fun u => if u = "T" then [20] else [], true, true, false⟩
        : Session).removeEventHandlerInstance "T" 20 = none)
    ∧ (((⟨fun u => if u = "T" then [10] else [], fun u => if u = "T" then [20, 21] else [],
        true, true, false⟩ : Session).removeEventHandlerInstance "T" 10).map
      (fun s => (s.handlers "T", s.onceHandlers "T")) = some ([], [20, 21])) := by
  exact ⟨rfl, rfl, by decide, rfl, rfl⟩

/-- C8: with bridging enabled and an empty subscription table, two successive
`AddHandler` registrations for tag `"T"` whose `QueueSubscribe` succeeds both
attempt a subscription — the success is never recorded (the source stores the
subscription only in the `err != nil` branch), while a failed subscription is
recorded and the handler is still registered. -/
theorem c8_subscription_recording_bug :
    ((Session.AddHandler (⟨fun _ => [], fun _ => [], true, true, true⟩ : Session)
      ⟨[]⟩ "T" 1 true).2.1 = (⟨[]⟩ : BridgeState))
    ∧ ((Session.AddHandler (⟨fun _ => [], fun _ => [], true, true, true⟩ : Session)
        ⟨[]⟩ "T" 1 true).2.2 = [TraceEntry.subscribeAttempt "T"])
    ∧ ((Session.AddHandler
        (Session.AddHandler (⟨fun _ => [], fun _ => [], true, true, true⟩ : Session)
          ⟨[]⟩ "T" 1 true).1
        (Session.AddHandler (⟨fun _ => [], fun _ => [], true, true, true⟩ : Session)
          ⟨[]⟩ "T" 1 true).2.1 "T" 2 true).2.2 = [TraceEntry.subscribeAttempt "T"])
    ∧ (addHandlerSubscribe (⟨fun _ => [], fun _ => [], true, true, true⟩ : Session)
        ⟨[]⟩ "T" false = (⟨["T"]⟩, [TraceEntry.subscribeAttempt "T"]))
    ∧ ((Session.AddHandler (⟨fun _ => [], fun _ => [], true, true, true⟩ : Session)
        ⟨[]⟩ "T" 1 false).1.handlers "T" = [1])
    ∧ ((Session.AddHandlerOnce (⟨fun _ => [], fun _ => [], true, true, true⟩ : Session)
        "T" 1).onceHandlers "T" = [1]) := by
  exact ⟨rfl, rfl, rfl, rfl, rfl, rfl⟩

end Discordgo
